import Mathlib

/-
Verification of the outer-loop multi-policy MOQ-learning coordinator
(morl_baselines/multi_policy/multi_policy_moqlearning/mp_mo_q_learning.py).

The embedding translates the coordinator into pure Lean functions:
numbers are rationals, numpy arrays are lists, fallible numpy operations
(dot products of mismatched shapes, argmax of an empty array, stacking an
empty or ragged collection, list indexing) return Option values, and the
external collaborators (the LinearSupport frontier service and the
single-policy MOQLearning agent) are modelled from the specification where
their behavior decides a claim.
-/

set_option maxHeartbeats 1000000

namespace MorlSpec

/-! ## Basic numeric helpers mirroring numpy operations -/

/-- Dot product of two rational vectors, mirroring numpy dot on a pair of
1-D arrays: it fails (none) when the lengths differ, as numpy raises a
shape mismatch error there, and it never broadcasts a mismatched vector. -/
def npDot : List ℚ → List ℚ → Option ℚ
  | [], [] => some 0
  | x :: xs, y :: ys => (npDot xs ys).map (fun d => x * y + d)
  | _, _ => none

/-- Sequencing of a fallible map over a list, mirroring a Python list
comprehension whose body may raise: the first failure aborts the whole
computation. -/
def mapOpt (f : α → Option β) : List α → Option (List β)
  | [] => some []
  | a :: as => (f a).bind (fun b => (mapOpt f as).map (fun bs => b :: bs))

/-- Maximum of a value and all elements of a list (left fold with max). -/
def maxQ (x : ℚ) : List ℚ → ℚ
  | [] => x
  | y :: ys => maxQ (max x y) ys

/-- First index at which a list attains the given value; equals the length
of the list when the value does not occur in it. -/
def firstIdxOf (m : ℚ) : List ℚ → Nat
  | [] => 0
  | y :: ys => if y = m then 0 else firstIdxOf m ys + 1

/-- Embedding of numpy argmax on a 1-D array: the first index attaining the
maximum value; it fails on an empty array, as numpy raises there. -/
def np_argmax : List ℚ → Option Nat
  | [] => none
  | x :: xs => some (firstIdxOf (maxQ x xs) (x :: xs))

/-! ## Descending sort and index-set deletion (Python sorted + pop) -/

/-- Insertion of a number into a descending-sorted list of numbers. -/
def insertDesc (i : Nat) : List Nat → List Nat
  | [] => [i]
  | j :: js => if j ≤ i then i :: j :: js else j :: insertDesc i js

/-- Descending insertion sort, the embedding of Python sorted with the
reverse flag set. -/
def sortDesc : List Nat → List Nat
  | [] => []
  | i :: is => insertDesc i (sortDesc is)

/-- Embedding of the deletion loop of MPMOQLearning.delete_policies: sort
the indices in descending order, then pop each one in turn. -/
def deleteIndices (l : List α) (idxs : List Nat) : List α :=
  (sortDesc idxs).foldl (fun acc i => acc.eraseIdx i) l

/-- Reference deletion: walk the list with a position counter and keep
exactly the entries whose position is not in the index set, preserving the
relative order of the survivors. -/
def keepWithout (idxs : List Nat) : List α → Nat → List α
  | [], _ => []
  | a :: as, k => if k ∈ idxs then keepWithout idxs as (k + 1) else a :: keepWithout idxs as (k + 1)

/-! ## Data model of the coordinator -/

/-- A sub-policy as seen by the coordinator: an external single-objective
MOQLearning agent holding a weight vector, a learned Q-table (a function
from state to the per-action list of per-objective Q-values) and its own
greedy evaluation routine. -/
structure MOQLearningPolicy where
  id : Nat
  weights : List ℚ
  q_table : Nat → List (List ℚ)
  eval : Nat → List ℚ → Nat

/-- The frontier service state visible to the coordinator: the ordered
list of current frontier value vectors (the convex coverage set). -/
structure LinearSupport where
  num_objectives : Nat
  ccs : List (List ℚ)

/-- The coordinator state: configuration, the policy pool, the frontier
service and the global step counter. -/
structure MPMOQLearning where
  use_gpi_policy : Bool
  weight_selection_algo : String
  transfer_q_table : Bool
  reward_dim : Nat
  policies : List MOQLearningPolicy
  linear_support : LinearSupport
  global_step : Nat

/-- Modelled from the spec: SubPolicy.scalarized_q_values(state, weight)
of the external single-policy MOQLearning collaborator (absent from src)
returns the vector over actions of scalarized Q-values, the scalarization
being the weighted sum (dot product) of the per-action multi-objective
Q-vector with the weight; a dimension mismatch fails as numpy dot raises. -/
def scalarized_q_values (p : MOQLearningPolicy) (state : Nat) (w : List ℚ) : Option (List ℚ) :=
  mapOpt (fun qa => npDot qa w) (p.q_table state)

/-- Argmax core of MPMOQLearning._gpi_action: given the stacked matrix of
per-policy scalarized Q-values (one row per policy, one column per action),
take the row-major flat argmax and return its action component (the flat
index modulo the number of actions, as numpy unravel_index computes it).
Stacking fails on an empty or ragged collection of rows, as numpy raises. -/
def gpi_rows (rows : List (List ℚ)) : Option Nat :=
  match rows with
  | [] => none
  | r :: rs =>
    if rs.all (fun q => q.length == r.length) then
      (np_argmax (List.flatten (r :: rs))).map (fun i => i % r.length)
    else none

/-- Embedding of MPMOQLearning._gpi_action: stack the scalarized Q-values
of every policy in the pool and take the action of the row-major argmax. -/
def gpi_action (agent : MPMOQLearning) (state : Nat) (w : List ℚ) : Option Nat :=
  (mapOpt (fun p => scalarized_q_values p state w) agent.policies).bind gpi_rows

/-- Embedding of MPMOQLearning.eval: in GPI mode delegate to the GPI action
selector; otherwise pick the pool index whose frontier value vector
maximizes the dot product with the queried weight and delegate to that
policy's own evaluation routine. -/
def MPMOQLearning.eval (agent : MPMOQLearning) (obs : Nat) (w : List ℚ) : Option Nat :=
  if agent.use_gpi_policy then
    gpi_action agent obs w
  else
    (mapOpt (fun v => npDot w v) agent.linear_support.ccs).bind (fun dots =>
      (np_argmax dots).bind (fun best_policy =>
        (agent.policies[best_policy]?).map (fun p => p.eval obs w)))

/-- Embedding of MPMOQLearning.delete_policies: pop the pool entries at the
given indices, processed in descending order; nothing else is touched. -/
def MPMOQLearning.delete_policies (agent : MPMOQLearning) (delete_indx : List Nat) : MPMOQLearning :=
  { agent with policies := deleteIndices agent.policies delete_indx }

/-- The weight selection strategies accepted by the constructor. -/
def weight_selection_algos : List String := ["random", "ols", "gpi-ls"]

/-- Embedding of MPMOQLearning.__init__ restricted to the state the claims
concern: the constructor asserts that the configured weight selection
strategy is one of the known ones and fails otherwise, stores the
configuration unchanged, and starts with an empty pool, a fresh frontier
service and a zero step counter. -/
def MPMOQLearning.init (weight_selection_algo : String) (use_gpi_policy : Bool)
    (transfer_q_table : Bool) (reward_dim : Nat) : Except String MPMOQLearning :=
  if weight_selection_algo ∈ weight_selection_algos then
    Except.ok
      { use_gpi_policy := use_gpi_policy
        weight_selection_algo := weight_selection_algo
        transfer_q_table := transfer_q_table
        reward_dim := reward_dim
        policies := []
        linear_support := { num_objectives := reward_dim, ccs := [] }
        global_step := 0 }
  else
    Except.error ("Unknown weight selection algorithm: " ++ weight_selection_algo)

/-! ## Heap model of Q-tables for the warm-start transfer

Python Q-tables are mutable objects reached through references; to settle
the aliasing claim the tables live in an explicit store and each policy
holds a reference into it. -/

/-- A Q-table value: per state, per action, the per-objective Q-vector. -/
def QTable := List (List (List ℚ))

/-- A store of Q-tables: a heap mapping references to table contents and
the next fresh reference. -/
structure QStore where
  heap : Nat → QTable
  next : Nat

/-- A pool entry as relevant to the transfer step: its weight vector and
the reference to its Q-table in the store. -/
structure PolicyRef where
  weights : List ℚ
  q_table_ref : Nat

/-- Embedding of Python deepcopy of a Q-table: allocate a fresh reference
holding a copy of the contents and return it with the grown store. -/
def deepcopy (st : QStore) (t : QTable) : QStore × Nat :=
  ({ heap := fun r => if r = st.next then t else st.heap r, next := st.next + 1 }, st.next)

/-- Mutation of the Q-table behind a reference (an in-place Python update
of that table). -/
def writeQTable (st : QStore) (r : Nat) (t : QTable) : QStore :=
  { st with heap := fun x => if x = r then t else st.heap x }

/-- Embedding of the warm-start transfer block of MPMOQLearning.train:
when transfer is enabled and the pool is non-empty, pick the pool index
whose frontier value vector maximizes the dot product with the new weight
and give the new agent a deep copy of that member's Q-table; otherwise the
new agent is left as created. The numpy dot products and the list indexing
may fail, as in the source. -/
def transferStep (transfer_q_table : Bool) (policies : List PolicyRef)
    (ccs : List (List ℚ)) (w : List ℚ) (st : QStore) (new_agent : PolicyRef) :
    Option (QStore × PolicyRef) :=
  if transfer_q_table ∧ 0 < policies.length then
    (mapOpt (fun v => npDot w v) ccs).bind (fun dots =>
      (np_argmax dots).bind (fun reuse_ind =>
        (policies[reuse_ind]?).map (fun src =>
          let alloc := deepcopy st (st.heap src.q_table_ref)
          (alloc.1, { new_agent with q_table_ref := alloc.2 }))))
  else some (st, new_agent)

/-! ## Model of the outer training loop

The per-iteration external outcomes (the selected weight and the value
vector the evaluation of the freshly trained policy produces) are supplied
by an oracle; the frontier service and the step accounting of sub-policy
training are modelled from the spec, as their code is outside src. -/

/-- A pool entry of the loop model: the policy together with the weight it
was created for, the value vector its evaluation produced, and its step
counter. -/
structure PoolEntry where
  weights : List ℚ
  value : List ℚ
  global_step : Nat

/-- The loop state: the policy pool, the frontier service value vectors
and the global step counter. -/
structure LoopState where
  pool : List PoolEntry
  ccs : List (List ℚ)
  global_step : Nat

/-- The external outcomes of one iteration: the weight chosen by the
weight selection dispatcher and the value vector produced by evaluating
the freshly trained policy. -/
structure IterOracle where
  w : List ℚ
  value : List ℚ

/-- Componentwise domination: u dominates v when both have the same length
and v is less than or equal to u in every objective. -/
def dominatesB (u v : List ℚ) : Bool :=
  u.length == v.length && (List.zip v u).all (fun p => decide (p.1 ≤ p.2))

/-- Modelled from the spec: LinearSupport.add_solution (the frontier
service, absent from src) appends the new value vector to its ordered
frontier list, removes the now-dominated entries from that list, and
returns the removed index set so the caller can prune the pool with the
same indices. -/
def add_solution (ccs : List (List ℚ)) (value : List ℚ) : List (List ℚ) × List Nat :=
  let ccs' := ccs ++ [value]
  let removed := (List.range ccs'.length).filter (fun i =>
    (List.range ccs'.length).any (fun j =>
      j != i && dominatesB (ccs'.getD j []) (ccs'.getD i [])))
  (deleteIndices ccs' removed, removed)

/-- One iteration of MPMOQLearning.train: create the new policy for the
selected weight, propagate the global step counter into it, train it
(modelled from the spec: training for timesteps_per_iteration steps
advances the policy's counter by exactly that much, never resetting it),
read the counter back, append the policy to the pool, submit its evaluated
value to the frontier service and prune the pool at the returned indices. -/
def trainIteration (timesteps_per_iteration : Nat) (st : LoopState) (o : IterOracle) : LoopState :=
  let created : PoolEntry := { weights := o.w, value := o.value, global_step := 0 }
  let resumed : PoolEntry := { created with global_step := st.global_step }
  let trained : PoolEntry := { resumed with global_step := resumed.global_step + timesteps_per_iteration }
  let pool1 := st.pool ++ [trained]
  let upd := add_solution st.ccs o.value
  { pool := deleteIndices pool1 upd.2
    ccs := upd.1
    global_step := trained.global_step }

/-- The outer loop of MPMOQLearning.train: fold one iteration per oracle
entry (num_iterations many). -/
def trainRun (timesteps_per_iteration : Nat) (st : LoopState) (os : List IterOracle) : LoopState :=
  os.foldl (trainIteration timesteps_per_iteration) st

/-- The loop state at entry to train on a freshly constructed coordinator:
empty pool, empty frontier, zero step counter. -/
def initialLoopState : LoopState :=
  { pool := [], ccs := [], global_step := 0 }

/-- The index alignment invariant: pool and frontier have the same shape
and the entry at each pool position is the policy whose evaluation
produced the frontier value vector at the same position. -/
def aligned (st : LoopState) : Prop :=
  List.Forall₂ (fun (p : PoolEntry) v => p.value = v) st.pool st.ccs

/-- The scalarized Q-value of the matrix of stacked rows at a given
(policy, action) position, with 0 as the out-of-range default. -/
def entryQ (rows : List (List ℚ)) (p a : Nat) : ℚ :=
  (rows.getD p []).getD a 0

/-- The maximum over all policies of the scalarized Q-value of a fixed
action (the column maximum of the stacked matrix); 0 for no policies. -/
def colMaxQ (rows : List (List ℚ)) (a : Nat) : ℚ :=
  match rows with
  | [] => 0
  | r :: rs => maxQ (r.getD a 0) (rs.map (fun q => q.getD a 0))

/-! ## Helper lemmas: dot products and fallible maps -/

theorem npDot_isSome_of_length_eq :
    ∀ (xs ys : List ℚ), xs.length = ys.length → ∃ d, npDot xs ys = some d := by
  intro xs
  induction xs with
  | nil =>
    intro ys h
    cases ys with
    | nil => exact ⟨0, rfl⟩
    | cons y ys => simp at h
  | cons x xs ih =>
    intro ys h
    cases ys with
    | nil => simp at h
    | cons y ys =>
      simp only [List.length_cons, Nat.add_right_cancel_iff] at h
      obtain ⟨d, hd⟩ := ih ys h
      exact ⟨x * y + d, by simp [npDot, hd]⟩

theorem npDot_eq_none_of_length_ne :
    ∀ (xs ys : List ℚ), xs.length ≠ ys.length → npDot xs ys = none := by
  intro xs
  induction xs with
  | nil =>
    intro ys h
    cases ys with
    | nil => simp at h
    | cons y ys => rfl
  | cons x xs ih =>
    intro ys h
    cases ys with
    | nil => rfl
    | cons y ys =>
      simp only [List.length_cons, ne_eq, Nat.add_right_cancel_iff] at h
      simp [npDot, ih ys h]

theorem mapOpt_nil (f : α → Option β) : mapOpt f [] = some [] := rfl

theorem mapOpt_cons (f : α → Option β) (a : α) (as : List α) :
    mapOpt f (a :: as) = (f a).bind (fun b => (mapOpt f as).map (fun bs => b :: bs)) := rfl

theorem mapOpt_length :
    ∀ (l : List α) (bs : List β), mapOpt f l = some bs → bs.length = l.length := by
  intro l
  induction l with
  | nil =>
    intro bs h
    have h' : ([] : List β) = bs := by injection h
    rw [← h']
    rfl
  | cons a as ih =>
    intro bs h
    rw [mapOpt_cons] at h
    cases hfa : f a with
    | none => rw [hfa] at h; simp at h
    | some b =>
      rw [hfa] at h
      cases hrec : mapOpt f as with
      | none => rw [hrec] at h; simp at h
      | some cs =>
        rw [hrec] at h
        have h' : b :: cs = bs := by injection h
        subst h'
        simp [ih cs hrec]

theorem mapOpt_eq_none_of_mem {f : α → Option β} :
    ∀ (l : List α) (a : α), a ∈ l → f a = none → mapOpt f l = none := by
  intro l
  induction l with
  | nil => intro a h; simp at h
  | cons x xs ih =>
    intro a h hfa
    rcases List.mem_cons.mp h with h1 | h2
    · subst h1
      simp [mapOpt, hfa]
    · simp only [mapOpt]
      rw [ih a h2 hfa]
      cases f x <;> rfl

theorem mapOpt_mem_some {f : α → Option β} :
    ∀ (l : List α) (bs : List β), mapOpt f l = some bs →
      ∀ b ∈ bs, ∃ a ∈ l, f a = some b := by
  intro l
  induction l with
  | nil =>
    intro bs h b hb
    have h' : ([] : List β) = bs := by injection h
    rw [← h'] at hb
    simp at hb
  | cons x xs ih =>
    intro bs h b hb
    rw [mapOpt_cons] at h
    cases hfx : f x with
    | none => rw [hfx] at h; simp at h
    | some c =>
      rw [hfx] at h
      cases hrec : mapOpt f xs with
      | none => rw [hrec] at h; simp at h
      | some cs =>
        rw [hrec] at h
        have h' : c :: cs = bs := by injection h
        subst h'
        rcases List.mem_cons.mp hb with h1 | h2
        · exact ⟨x, List.mem_cons_self x xs, by rw [hfx, h1]⟩
        · obtain ⟨a, ha, hfa⟩ := ih cs hrec b h2
          exact ⟨a, List.mem_cons_of_mem x ha, hfa⟩

theorem mapOpt_isSome {f : α → Option β} :
    ∀ (l : List α), (∀ a ∈ l, ∃ b, f a = some b) → ∃ bs, mapOpt f l = some bs := by
  intro l
  induction l with
  | nil => intro _; exact ⟨[], rfl⟩
  | cons x xs ih =>
    intro h
    obtain ⟨b, hb⟩ := h x (List.mem_cons_self x xs)
    obtain ⟨bs, hbs⟩ := ih (fun a ha => h a (List.mem_cons_of_mem x ha))
    exact ⟨b :: bs, by simp [mapOpt, hb, hbs]⟩

/-! ## Helper lemmas: maximum and first index -/

theorem le_maxQ_left : ∀ (xs : List ℚ) (x : ℚ), x ≤ maxQ x xs := by
  intro xs
  induction xs with
  | nil => intro x; exact le_refl x
  | cons y ys ih =>
    intro x
    exact le_trans (le_max_left x y) (ih (max x y))

theorem le_maxQ_of_mem : ∀ (xs : List ℚ) (x y : ℚ), y ∈ xs → y ≤ maxQ x xs := by
  intro xs
  induction xs with
  | nil => intro x y h; simp at h
  | cons z zs ih =>
    intro x y h
    rcases List.mem_cons.mp h with h1 | h2
    · subst h1
      exact le_trans (le_max_right x y) (le_maxQ_left zs (max x y))
    · exact ih (max x z) y h2

theorem maxQ_mem : ∀ (xs : List ℚ) (x : ℚ), maxQ x xs ∈ x :: xs := by
  intro xs
  induction xs with
  | nil => intro x; simp [maxQ]
  | cons y ys ih =>
    intro x
    have h := ih (max x y)
    simp only [maxQ]
    rcases List.mem_cons.mp h with h1 | h2
    · rcases max_choice x y with hc | hc
      · rw [h1, hc]
        exact List.mem_cons_self x (y :: ys)
      · rw [h1, hc]
        exact List.mem_cons_of_mem x (List.mem_cons_self y ys)
    · exact List.mem_cons_of_mem x (List.mem_cons_of_mem y h2)

theorem firstIdxOf_spec :
    ∀ (l : List ℚ) (m : ℚ), m ∈ l →
      firstIdxOf m l < l.length ∧ l.getD (firstIdxOf m l) 0 = m ∧
        ∀ j < firstIdxOf m l, l.getD j 0 ≠ m := by
  intro l
  induction l with
  | nil => intro m h; simp at h
  | cons y ys ih =>
    intro m h
    by_cases hy : y = m
    · refine ⟨?_, ?_, ?_⟩
      · simp [firstIdxOf, hy]
      · simp [firstIdxOf, hy]
      · intro j hj
        simp [firstIdxOf, hy] at hj
    · have hm : m ∈ ys := by
        rcases List.mem_cons.mp h with h1 | h2
        · exact absurd h1.symm hy
        · exact h2
      obtain ⟨h1, h2, h3⟩ := ih m hm
      refine ⟨?_, ?_, ?_⟩
      · simp only [firstIdxOf, if_neg hy, List.length_cons]
        omega
      · simp only [firstIdxOf, if_neg hy, List.getD_cons_succ]
        exact h2
      · intro j hj
        simp only [firstIdxOf, if_neg hy] at hj
        cases j with
        | zero => simpa using hy
        | succ j' =>
          simp only [List.getD_cons_succ]
          exact h3 j' (by omega)

theorem getD_mem : ∀ (l : List α) (i : Nat) (d : α), i < l.length → l.getD i d ∈ l := by
  intro l
  induction l with
  | nil => intro i d h; simp at h
  | cons a as ih =>
    intro i d h
    cases i with
    | zero => simp
    | succ i' =>
      simp only [List.getD_cons_succ]
      exact List.mem_cons_of_mem a (ih i' d (by simpa using h))

theorem exists_getD_of_mem :
    ∀ (l : List α) (a d : α), a ∈ l → ∃ i, i < l.length ∧ l.getD i d = a := by
  intro l
  induction l with
  | nil => intro a d h; simp at h
  | cons x xs ih =>
    intro a d h
    rcases List.mem_cons.mp h with h1 | h2
    · exact ⟨0, by simp, by simp [h1.symm]⟩
    · obtain ⟨i, hi, hgd⟩ := ih a d h2
      exact ⟨i + 1, by simpa using hi, by simpa using hgd⟩

/-- Full specification of np_argmax on a non-empty list: it returns the
first index attaining the maximum value of the list. -/
theorem np_argmax_spec (x : ℚ) (xs : List ℚ) :
    ∃ i, np_argmax (x :: xs) = some i ∧ i < xs.length + 1 ∧
      (x :: xs).getD i 0 = maxQ x xs ∧
      (∀ j < i, (x :: xs).getD j 0 ≠ maxQ x xs) ∧
      (∀ j < xs.length + 1, (x :: xs).getD j 0 ≤ maxQ x xs) := by
  have hmem : maxQ x xs ∈ x :: xs := maxQ_mem xs x
  obtain ⟨h1, h2, h3⟩ := firstIdxOf_spec (x :: xs) (maxQ x xs) hmem
  refine ⟨firstIdxOf (maxQ x xs) (x :: xs), rfl, by simpa using h1, h2, h3, ?_⟩
  intro j hj
  have hmem2 : (x :: xs).getD j 0 ∈ x :: xs := getD_mem (x :: xs) j 0 (by simpa using hj)
  rcases List.mem_cons.mp hmem2 with h4 | h5
  · rw [h4]; exact le_maxQ_left xs x
  · exact le_maxQ_of_mem xs x _ h5

/-! ## Helper lemmas: descending sort -/

theorem insertDesc_perm (i : Nat) : ∀ (l : List Nat), List.Perm (insertDesc i l) (i :: l) := by
  intro l
  induction l with
  | nil => exact List.Perm.refl [i]
  | cons j js ih =>
    by_cases h : j ≤ i
    · simp [insertDesc, h]
    · simp only [insertDesc, if_neg h]
      exact (ih.cons j).trans (List.Perm.swap i j js)

theorem sortDesc_perm : ∀ (l : List Nat), List.Perm (sortDesc l) l := by
  intro l
  induction l with
  | nil => exact List.Perm.refl []
  | cons i is ih =>
    exact (insertDesc_perm i (sortDesc is)).trans (ih.cons i)

theorem insertDesc_sorted (i : Nat) :
    ∀ (l : List Nat), List.Pairwise (fun a b => b ≤ a) l →
      List.Pairwise (fun a b => b ≤ a) (insertDesc i l) := by
  intro l
  induction l with
  | nil => intro _; simp [insertDesc]
  | cons j js ih =>
    intro hp
    rcases List.pairwise_cons.mp hp with ⟨hj, hjs⟩
    by_cases h : j ≤ i
    · simp only [insertDesc, if_pos h]
      refine List.pairwise_cons.mpr ⟨?_, hp⟩
      intro b hb
      rcases List.mem_cons.mp hb with h1 | h2
      · rw [h1]; exact h
      · exact le_trans (hj b h2) h
    · simp only [insertDesc, if_neg h]
      refine List.pairwise_cons.mpr ⟨?_, ih hjs⟩
      intro b hb
      have hb2 : b ∈ i :: js := (insertDesc_perm i js).mem_iff.mp hb
      rcases List.mem_cons.mp hb2 with h1 | h2
      · rw [h1]; omega
      · exact hj b h2

theorem sortDesc_sorted : ∀ (l : List Nat), List.Pairwise (fun a b => b ≤ a) (sortDesc l) := by
  intro l
  induction l with
  | nil => simp [sortDesc]
  | cons i is ih => exact insertDesc_sorted i (sortDesc is) ih

/-! ## Helper lemmas: index-set deletion -/

theorem foldl_eraseIdx_sublist :
    ∀ (idxs : List Nat) (l : List α), List.Sublist (idxs.foldl (fun acc i => acc.eraseIdx i) l) l := by
  intro idxs
  induction idxs with
  | nil => intro l; exact List.Sublist.refl l
  | cons i rest ih =>
    intro l
    exact (ih (l.eraseIdx i)).trans (List.eraseIdx_sublist l i)

theorem deleteIndices_sublist (l : List α) (idxs : List Nat) : List.Sublist (deleteIndices l idxs) l :=
  foldl_eraseIdx_sublist (sortDesc idxs) l

theorem forall₂_eraseIdx {R : α → β → Prop} :
    ∀ (l₁ : List α) (l₂ : List β) (i : Nat), List.Forall₂ R l₁ l₂ →
      List.Forall₂ R (l₁.eraseIdx i) (l₂.eraseIdx i) := by
  intro l₁
  induction l₁ with
  | nil =>
    intro l₂ i h
    cases h
    simp [List.eraseIdx]
  | cons a as ih =>
    intro l₂ i h
    cases h with
    | cons hab hrest =>
      cases i with
      | zero => simpa [List.eraseIdx] using hrest
      | succ i' =>
        simp only [List.eraseIdx]
        exact List.Forall₂.cons hab (ih _ i' hrest)

theorem forall₂_deleteIndices {R : α → β → Prop} (l₁ : List α) (l₂ : List β) (idxs : List Nat)
    (h : List.Forall₂ R l₁ l₂) :
    List.Forall₂ R (deleteIndices l₁ idxs) (deleteIndices l₂ idxs) := by
  unfold deleteIndices
  generalize sortDesc idxs = s
  induction s generalizing l₁ l₂ with
  | nil => exact h
  | cons i rest ih =>
    exact ih _ _ (forall₂_eraseIdx l₁ l₂ i h)

theorem keepWithout_nil_idxs : ∀ (l : List α) (k : Nat), keepWithout [] l k = l := by
  intro l
  induction l with
  | nil => intro k; rfl
  | cons a as ih =>
    intro k
    simp [keepWithout, ih]

theorem keepWithout_high {idxs : List Nat} :
    ∀ (l : List α) (k : Nat), (∀ j ∈ idxs, j < k) → keepWithout idxs l k = l := by
  intro l
  induction l with
  | nil => intro k _; rfl
  | cons a as ih =>
    intro k hk
    have hnk : k ∉ idxs := fun hmem => absurd (hk k hmem) (lt_irrefl k)
    simp only [keepWithout, if_neg hnk]
    rw [ih (k + 1) (fun j hj => Nat.lt_succ_of_lt (hk j hj))]

theorem keepWithout_congr {idxs idxs' : List Nat} (hiff : ∀ j, j ∈ idxs ↔ j ∈ idxs') :
    ∀ (l : List α) (k : Nat), keepWithout idxs l k = keepWithout idxs' l k := by
  intro l
  induction l with
  | nil => intro k; rfl
  | cons a as ih =>
    intro k
    by_cases h : k ∈ idxs
    · simp only [keepWithout, if_pos h, if_pos ((hiff k).mp h), ih]
    · simp only [keepWithout, if_neg h, if_neg (fun h' => h ((hiff k).mpr h')), ih]

theorem keepWithout_eraseIdx {rest : List Nat} {i : Nat} :
    ∀ (l : List α) (k : Nat), k ≤ i → i - k < l.length → (∀ j ∈ rest, j < i) →
      keepWithout rest (l.eraseIdx (i - k)) k = keepWithout (i :: rest) l k := by
  intro l
  induction l with
  | nil =>
    intro k _ h2 _
    simp at h2
  | cons a as ih =>
    intro k h1 h2 h3
    by_cases hk : k = i
    · subst hk
      have h0 : k - k = 0 := Nat.sub_self k
      rw [h0]
      simp only [List.eraseIdx]
      have hmem : k ∈ k :: rest := List.mem_cons_self k rest
      have hall : ∀ j ∈ k :: rest, j < k + 1 := by
        intro j hj
        rcases List.mem_cons.mp hj with hj1 | hj2
        · omega
        · have := h3 j hj2; omega
      rw [keepWithout_high as k h3]
      simp only [keepWithout, if_pos hmem]
      rw [keepWithout_high as (k + 1) (fun j hj => hall j hj)]
    · have hklt : k < i := lt_of_le_of_ne h1 hk
      have hsub : i - k = (i - (k + 1)) + 1 := by omega
      rw [hsub]
      simp only [List.eraseIdx]
      have hknotin : k ∉ i :: rest ↔ k ∉ rest := by
        constructor
        · intro h hmem; exact h (List.mem_cons_of_mem i hmem)
        · intro h hmem
          rcases List.mem_cons.mp hmem with h1' | h2'
          · exact hk h1'
          · exact h h2'
      have hrec := ih (k + 1) (by omega) (by simp at h2; omega) h3
      by_cases hkr : k ∈ rest
      · simp only [keepWithout, if_pos hkr, if_pos (List.mem_cons_of_mem i hkr)]
        exact hrec
      · have : k ∉ i :: rest := hknotin.mpr hkr
        simp only [keepWithout, if_neg hkr, if_neg this]
        rw [hrec]

theorem foldl_eraseIdx_sorted :
    ∀ (idxs : List Nat) (l : List α), List.Pairwise (fun a b => a > b) idxs →
      (∀ i ∈ idxs, i < l.length) →
      idxs.foldl (fun acc j => acc.eraseIdx j) l = keepWithout idxs l 0 := by
  intro idxs
  induction idxs with
  | nil =>
    intro l _ _
    exact (keepWithout_nil_idxs l 0).symm
  | cons i rest ih =>
    intro l hp hrange
    rcases List.pairwise_cons.mp hp with ⟨hi, hrest⟩
    have hilen : i < l.length := hrange i (List.mem_cons_self i rest)
    have hlen' : (l.eraseIdx i).length = l.length - 1 := List.length_eraseIdx_of_lt hilen
    have hrange' : ∀ j ∈ rest, j < (l.eraseIdx i).length := by
      intro j hj
      have hji : j < i := hi j hj
      omega
    have step : List.foldl (fun acc j => acc.eraseIdx j) l (i :: rest) =
        List.foldl (fun acc j => acc.eraseIdx j) (l.eraseIdx i) rest := rfl
    rw [step, ih (l.eraseIdx i) hrest hrange']
    have := @keepWithout_eraseIdx _ rest i l 0 (Nat.zero_le i)
      (by simpa using hilen) (fun j hj => hi j hj)
    simpa using this

theorem deleteIndices_eq_keepWithout (l : List α) (idxs : List Nat)
    (hnd : idxs.Nodup) (hrange : ∀ i ∈ idxs, i < l.length) :
    deleteIndices l idxs = keepWithout idxs l 0 := by
  have hperm : List.Perm (sortDesc idxs) idxs := sortDesc_perm idxs
  have hnd' : (sortDesc idxs).Nodup := hperm.nodup_iff.mpr hnd
  have hsorted : List.Pairwise (fun a b => b ≤ a) (sortDesc idxs) := sortDesc_sorted idxs
  have hgt : List.Pairwise (fun a b => a > b) (sortDesc idxs) := by
    have hand := hsorted.and hnd'
    exact hand.imp (fun {a b} hab => lt_of_le_of_ne hab.1 (Ne.symm hab.2))
  have hrange' : ∀ i ∈ sortDesc idxs, i < l.length := by
    intro i hi
    exact hrange i (hperm.mem_iff.mp hi)
  have h1 : deleteIndices l idxs = keepWithout (sortDesc idxs) l 0 :=
    foldl_eraseIdx_sorted (sortDesc idxs) l hgt hrange'
  rw [h1]
  exact keepWithout_congr (fun j => hperm.mem_iff) l 0

/-! ## Helper lemmas: flat indexing of a uniform matrix -/

theorem getD_append_left :
    ∀ (l₁ l₂ : List α) (i : Nat) (d : α), i < l₁.length → (l₁ ++ l₂).getD i d = l₁.getD i d := by
  intro l₁
  induction l₁ with
  | nil => intro l₂ i d h; simp at h
  | cons a as ih =>
    intro l₂ i d h
    cases i with
    | zero => rfl
    | succ i' =>
      simp only [List.cons_append, List.getD_cons_succ]
      exact ih l₂ i' d (by simpa using h)

theorem getD_append_right :
    ∀ (l₁ l₂ : List α) (i : Nat) (d : α), (l₁ ++ l₂).getD (l₁.length + i) d = l₂.getD i d := by
  intro l₁
  induction l₁ with
  | nil => intro l₂ i d; simp
  | cons a as ih =>
    intro l₂ i d
    have h : (a :: as).length + i = (as.length + i) + 1 := by
      simp [List.length_cons]; omega
    rw [h]
    simp only [List.cons_append, List.getD_cons_succ]
    exact ih l₂ i d

theorem flatten_length_uniform {nA : Nat} :
    ∀ (rows : List (List ℚ)), (∀ r ∈ rows, r.length = nA) →
      (List.flatten rows).length = rows.length * nA := by
  intro rows
  induction rows with
  | nil => intro _; simp
  | cons r rs ih =>
    intro h
    have hr : r.length = nA := h r (List.mem_cons_self r rs)
    have hrs : ∀ q ∈ rs, q.length = nA := fun q hq => h q (List.mem_cons_of_mem r hq)
    simp only [List.flatten_cons, List.length_append, List.length_cons, ih hrs, hr]
    ring

theorem flatten_getD_uniform {nA : Nat} :
    ∀ (rows : List (List ℚ)) (p a : Nat), (∀ r ∈ rows, r.length = nA) → a < nA →
      (List.flatten rows).getD (nA * p + a) 0 = (rows.getD p []).getD a 0 := by
  intro rows
  induction rows with
  | nil =>
    intro p a _ _
    simp
  | cons r rs ih =>
    intro p a h ha
    have hr : r.length = nA := h r (List.mem_cons_self r rs)
    have hrs : ∀ q ∈ rs, q.length = nA := fun q hq => h q (List.mem_cons_of_mem r hq)
    cases p with
    | zero =>
      simp only [Nat.mul_zero, Nat.zero_add, List.flatten_cons, List.getD_cons_zero]
      exact getD_append_left r (List.flatten rs) a 0 (by omega)
    | succ p' =>
      have hidx : nA * (p' + 1) + a = r.length + (nA * p' + a) := by
        rw [hr]; ring
      simp only [List.flatten_cons, List.getD_cons_succ, hidx]
      rw [getD_append_right r (List.flatten rs) (nA * p' + a) 0]
      exact ih p' a hrs ha

theorem np_argmax_spec' (l : List ℚ) (hne : l ≠ []) :
    ∃ i, np_argmax l = some i ∧ i < l.length ∧
      (∀ j < l.length, l.getD j 0 ≤ l.getD i 0) ∧
      (∀ j < i, l.getD j 0 < l.getD i 0) := by
  rcases l with _ | ⟨x, xs⟩
  · exact absurd rfl hne
  obtain ⟨i, h1, h2, h3, h4, h5⟩ := np_argmax_spec x xs
  refine ⟨i, h1, by simpa using h2, ?_, ?_⟩
  · intro j hj
    rw [h3]
    exact h5 j (by simpa using hj)
  · intro j hj
    rw [h3]
    have hjlen : j < xs.length + 1 := by omega
    exact lt_of_le_of_ne (h5 j hjlen) (h4 j hj)

theorem colMaxQ_ge (rows : List (List ℚ)) (a : Nat) :
    ∀ p, p < rows.length → entryQ rows p a ≤ colMaxQ rows a := by
  rcases rows with _ | ⟨r, rs⟩
  · intro p hp; simp at hp
  intro p hp
  cases p with
  | zero =>
    simp only [entryQ, List.getD_cons_zero, colMaxQ]
    exact le_maxQ_left _ _
  | succ p' =>
    simp only [entryQ, List.getD_cons_succ, colMaxQ]
    have hp' : p' < rs.length := by simpa using hp
    have hmem : rs.getD p' [] ∈ rs := getD_mem rs p' [] hp'
    have hmem2 : (rs.getD p' []).getD a 0 ∈ rs.map (fun q => q.getD a 0) :=
      List.mem_map_of_mem _ hmem
    exact le_maxQ_of_mem _ _ _ hmem2

theorem colMaxQ_attained (rows : List (List ℚ)) (a : Nat) (hne : rows ≠ []) :
    ∃ p, p < rows.length ∧ colMaxQ rows a = entryQ rows p a := by
  rcases rows with _ | ⟨r, rs⟩
  · exact absurd rfl hne
  have hmem := maxQ_mem (rs.map (fun q => q.getD a 0)) (r.getD a 0)
  rcases List.mem_cons.mp hmem with h1 | h2
  · exact ⟨0, by simp, by simpa [colMaxQ, entryQ] using h1⟩
  · obtain ⟨q, hq, hqa⟩ := List.mem_map.mp h2
    obtain ⟨p', hp', hgd⟩ := exists_getD_of_mem rs q [] hq
    refine ⟨p' + 1, by simpa using hp', ?_⟩
    simp only [colMaxQ, entryQ, List.getD_cons_succ]
    rw [hgd, hqa]

theorem flat_index_lt {nA p' a' L : Nat} (hp : p' < L) (ha : a' < nA) :
    nA * p' + a' < L * nA := by
  have h1 : nA * p' + a' < nA * (p' + 1) := by rw [Nat.mul_succ]; omega
  have h2 : nA * (p' + 1) ≤ nA * L := Nat.mul_le_mul_left nA hp
  have h3 : nA * L = L * nA := Nat.mul_comm nA L
  omega

/-- C1: for every non-empty pool whose stacked scalarized Q-value matrix
for the given state and weight is rows (uniform row length nA > 0), the
GPI action selector returns an action a maximizing over actions the
maximum over policies of the scalarized Q-value; moreover there is a
policy index p such that (p, a) attains the overall maximum and every
(policy, action) pair strictly earlier in row-major order (policies in
pool order, then actions in index order) has a strictly smaller value, so
the selection is deterministic. -/
theorem c1_gpi_action_argmax (agent : MPMOQLearning) (state : Nat) (w : List ℚ)
    (rows : List (List ℚ)) (nA : Nat)
    (hpool : agent.policies ≠ [])
    (hrows : mapOpt (fun p => scalarized_q_values p state w) agent.policies = some rows)
    (hlen : ∀ r ∈ rows, r.length = nA)
    (hA : 0 < nA) :
    ∃ a p, gpi_action agent state w = some a ∧ a < nA ∧ p < rows.length ∧
      colMaxQ rows a = entryQ rows p a ∧
      (∀ a', a' < nA → colMaxQ rows a' ≤ colMaxQ rows a) ∧
      (∀ p' a', p' < rows.length → a' < nA → entryQ rows p' a' ≤ entryQ rows p a) ∧
      (∀ p' a', p' < rows.length → a' < nA → (p' < p ∨ (p' = p ∧ a' < a)) →
        entryQ rows p' a' < entryQ rows p a) := by
  have hrlen : rows.length = agent.policies.length := mapOpt_length agent.policies rows hrows
  have hrne : rows ≠ [] := by
    intro h
    subst h
    simp only [List.length_nil] at hrlen
    exact hpool (List.length_eq_zero.mp hrlen.symm)
  rcases List.exists_cons_of_ne_nil hrne with ⟨r, rs, hcons⟩
  subst hcons
  have hr : r.length = nA := hlen r (List.mem_cons_self r rs)
  have hall : (rs.all (fun q => q.length == r.length)) = true := by
    rw [List.all_eq_true]
    intro q hq
    have h1 : q.length = nA := hlen q (List.mem_cons_of_mem r hq)
    simp [h1, hr]
  have hglen : (List.flatten (r :: rs)).length = (r :: rs).length * nA :=
    flatten_length_uniform (r :: rs) hlen
  have hfne : List.flatten (r :: rs) ≠ [] := by
    intro h
    have h0 : (List.flatten (r :: rs)).length = 0 := by rw [h]; rfl
    rw [hglen] at h0
    rcases Nat.mul_eq_zero.mp h0 with h1 | h2
    · simp at h1
    · omega
  obtain ⟨i, hsome, hilen, hmax, hfirst⟩ := np_argmax_spec' (List.flatten (r :: rs)) hfne
  have hgpi : gpi_action agent state w = some (i % r.length) := by
    have hg1 : gpi_action agent state w = gpi_rows (r :: rs) := by
      unfold gpi_action
      rw [hrows]
      rfl
    rw [hg1]
    show (if rs.all (fun q => q.length == r.length) then
        (np_argmax (List.flatten (r :: rs))).map (fun j => j % r.length) else none) =
      some (i % r.length)
    rw [hall, hsome]
    rfl
  rw [hr] at hgpi
  have hi2 : i < (r :: rs).length * nA := by rw [← hglen]; exact hilen
  have ha : i % nA < nA := Nat.mod_lt i hA
  have hp : i / nA < (r :: rs).length := (Nat.div_lt_iff_lt_mul hA).mpr hi2
  have hdecomp : nA * (i / nA) + i % nA = i := Nat.div_add_mod i nA
  have hEi : (List.flatten (r :: rs)).getD i 0 = ((r :: rs).getD (i / nA) []).getD (i % nA) 0 := by
    have h := flatten_getD_uniform (r :: rs) (i / nA) (i % nA) hlen ha
    rw [hdecomp] at h
    exact h
  have hglobal : ∀ p' a', p' < (r :: rs).length → a' < nA →
      entryQ (r :: rs) p' a' ≤ entryQ (r :: rs) (i / nA) (i % nA) := by
    intro p' a' hp' ha'
    have h1 : (List.flatten (r :: rs)).getD (nA * p' + a') 0 =
        ((r :: rs).getD p' []).getD a' 0 := flatten_getD_uniform (r :: rs) p' a' hlen ha'
    have h2 : nA * p' + a' < (List.flatten (r :: rs)).length := by
      rw [hglen]; exact flat_index_lt hp' ha'
    have h3 := hmax (nA * p' + a') h2
    rw [h1, hEi] at h3
    exact h3
  have htie : ∀ p' a', p' < (r :: rs).length → a' < nA →
      (p' < i / nA ∨ (p' = i / nA ∧ a' < i % nA)) →
      entryQ (r :: rs) p' a' < entryQ (r :: rs) (i / nA) (i % nA) := by
    intro p' a' hp' ha' hlt
    have hidx : nA * p' + a' < i := by
      rcases hlt with h | ⟨heq, hlt2⟩
      · have h1 : nA * p' + a' < nA * p' + nA := Nat.add_lt_add_left ha' _
        have h1b : nA * p' + nA = nA * (p' + 1) := (Nat.mul_succ nA p').symm
        have h2 : nA * (p' + 1) ≤ nA * (i / nA) := Nat.mul_le_mul_left nA h
        have h3 : nA * (i / nA) ≤ i := by
          conv_rhs => rw [← hdecomp]
          exact Nat.le_add_right _ _
        calc nA * p' + a' < nA * (p' + 1) := by rw [← h1b]; exact h1
          _ ≤ nA * (i / nA) := h2
          _ ≤ i := h3
      · rw [heq]
        calc nA * (i / nA) + a' < nA * (i / nA) + i % nA := Nat.add_lt_add_left hlt2 _
          _ = i := hdecomp
    have h1 : (List.flatten (r :: rs)).getD (nA * p' + a') 0 =
        ((r :: rs).getD p' []).getD a' 0 := flatten_getD_uniform (r :: rs) p' a' hlen ha'
    have h4 := hfirst (nA * p' + a') hidx
    rw [h1, hEi] at h4
    exact h4
  have hcol_eq : colMaxQ (r :: rs) (i % nA) = entryQ (r :: rs) (i / nA) (i % nA) := by
    obtain ⟨p₂, hp₂, hatt⟩ := colMaxQ_attained (r :: rs) (i % nA) (by simp)
    have h1 : entryQ (r :: rs) (i / nA) (i % nA) ≤ colMaxQ (r :: rs) (i % nA) :=
      colMaxQ_ge (r :: rs) (i % nA) (i / nA) hp
    have h2 : entryQ (r :: rs) p₂ (i % nA) ≤ entryQ (r :: rs) (i / nA) (i % nA) :=
      hglobal p₂ (i % nA) hp₂ ha
    have h3 : colMaxQ (r :: rs) (i % nA) ≤ entryQ (r :: rs) (i / nA) (i % nA) := by
      rw [hatt]; exact h2
    exact le_antisymm h3 h1
  have hcol_max : ∀ a', a' < nA → colMaxQ (r :: rs) a' ≤ colMaxQ (r :: rs) (i % nA) := by
    intro a' ha'
    obtain ⟨p₁, hp₁, hatt₁⟩ := colMaxQ_attained (r :: rs) a' (by simp)
    rw [hatt₁, hcol_eq]
    exact hglobal p₁ a' hp₁ ha'
  exact ⟨i % nA, i / nA, hgpi, ha, hp, hcol_eq, hcol_max, hglobal, htie⟩

theorem c1_gpi_action_argmax_witness :
    ∃ a p, gpi_action
      { use_gpi_policy := true, weight_selection_algo := "random", transfer_q_table := false,
        reward_dim := 1,
        policies := [{ id := 0, weights := [1], q_table := fun _ => [[1], [3]], eval := fun _ _ => 0 }],
        linear_support := { num_objectives := 1, ccs := [[1]] }, global_step := 0 }
      0 [2] = some a ∧ a < 2 ∧ p < [[(2 : ℚ), 6]].length ∧
      colMaxQ [[(2 : ℚ), 6]] a = entryQ [[(2 : ℚ), 6]] p a ∧
      (∀ a', a' < 2 → colMaxQ [[(2 : ℚ), 6]] a' ≤ colMaxQ [[(2 : ℚ), 6]] a) ∧
      (∀ p' a', p' < [[(2 : ℚ), 6]].length → a' < 2 →
        entryQ [[(2 : ℚ), 6]] p' a' ≤ entryQ [[(2 : ℚ), 6]] p a) ∧
      (∀ p' a', p' < [[(2 : ℚ), 6]].length → a' < 2 → (p' < p ∨ (p' = p ∧ a' < a)) →
        entryQ [[(2 : ℚ), 6]] p' a' < entryQ [[(2 : ℚ), 6]] p a) :=
  c1_gpi_action_argmax _ 0 [2] [[(2 : ℚ), 6]] 2
    (List.cons_ne_nil _ _) (by simp [mapOpt, scalarized_q_values, npDot]; norm_num)
    (by decide) (by decide)

/-- C3: for every pool and every list of distinct in-range indices,
delete_policies removes exactly the entries at those positions and keeps
the survivors in their relative order (it equals the position-filtering
reference function), the result does not depend on the order in which the
indices are given, and removing index set [1] from a three-element pool
yields exactly the first and third elements in that order. -/
theorem c3_delete_policies_removes_exactly {α : Type} (l : List α) (idxs idxs' : List Nat)
    (hnd : idxs.Nodup) (hrange : ∀ i ∈ idxs, i < l.length)
    (hperm : List.Perm idxs idxs') :
    deleteIndices l idxs = keepWithout idxs l 0 ∧
    deleteIndices l idxs' = deleteIndices l idxs ∧
    (∀ a b c : α, deleteIndices [a, b, c] [1] = [a, c]) := by
  have h1 : deleteIndices l idxs = keepWithout idxs l 0 :=
    deleteIndices_eq_keepWithout l idxs hnd hrange
  have hnd' : idxs'.Nodup := hperm.nodup_iff.mp hnd
  have hrange' : ∀ i ∈ idxs', i < l.length := fun i hi =>
    hrange i (hperm.mem_iff.mpr hi)
  have h2 : deleteIndices l idxs' = keepWithout idxs' l 0 :=
    deleteIndices_eq_keepWithout l idxs' hnd' hrange'
  refine ⟨h1, ?_, ?_⟩
  · rw [h1, h2]
    exact keepWithout_congr (fun j => (List.Perm.mem_iff hperm).symm) l 0
  · intro a b c
    rfl

theorem c3_delete_policies_removes_exactly_witness :
    deleteIndices [10, 20, 30, 40] [2, 0] = keepWithout [2, 0] [10, 20, 30, 40] 0 ∧
    deleteIndices [10, 20, 30, 40] [0, 2] = deleteIndices [10, 20, 30, 40] [2, 0] ∧
    (∀ a b c : Nat, deleteIndices [a, b, c] [1] = [a, c]) :=
  c3_delete_policies_removes_exactly [10, 20, 30, 40] [2, 0] [0, 2]
    (by decide) (by decide) (by decide)

/-- C10: delete_policies mutates only the pool sequence: the surviving
policies are a sublist of the original pool (the same entries, in the same
relative order), and the frontier service state, the configuration and the
step counter are untouched, so pruning the frontier requires a separate
frontier-side removal. -/
theorem c10_delete_policies_frame (agent : MPMOQLearning) (delete_indx : List Nat) :
    (agent.delete_policies delete_indx).linear_support = agent.linear_support ∧
    List.Sublist (agent.delete_policies delete_indx).policies agent.policies ∧
    (agent.delete_policies delete_indx).use_gpi_policy = agent.use_gpi_policy ∧
    (agent.delete_policies delete_indx).weight_selection_algo = agent.weight_selection_algo ∧
    (agent.delete_policies delete_indx).transfer_q_table = agent.transfer_q_table ∧
    (agent.delete_policies delete_indx).reward_dim = agent.reward_dim ∧
    (agent.delete_policies delete_indx).global_step = agent.global_step :=
  ⟨rfl, deleteIndices_sublist agent.policies delete_indx, rfl, rfl, rfl, rfl, rfl⟩

/-- C4: querying eval with an empty policy pool fails rather than
returning an action, in GPI mode (stacking the Q-values of no policies
fails) as well as in non-GPI mode (either the argmax over the frontier
fails on an empty frontier, or indexing the empty pool fails). -/
theorem c4_eval_empty_pool (agent : MPMOQLearning) (obs : Nat) (w : List ℚ)
    (hpool : agent.policies = []) :
    MPMOQLearning.eval agent obs w = none := by
  unfold MPMOQLearning.eval
  by_cases hmode : agent.use_gpi_policy
  · rw [if_pos hmode]
    unfold gpi_action
    rw [hpool]
    rfl
  · rw [if_neg hmode]
    cases hdots : mapOpt (fun v => npDot w v) agent.linear_support.ccs with
    | none => rfl
    | some dots =>
      cases hamax : np_argmax dots with
      | none => simp [hamax]
      | some best_policy =>
        have hnone : agent.policies[best_policy]? = none := by
          rw [hpool]
          rfl
        simp [hamax, hnone]

theorem c4_eval_empty_pool_witness :
    MPMOQLearning.eval
      { use_gpi_policy := false, weight_selection_algo := "random", transfer_q_table := false,
        reward_dim := 2, policies := [],
        linear_support := { num_objectives := 2, ccs := [[1, 0]] }, global_step := 0 }
      0 [1, 1] = none :=
  c4_eval_empty_pool _ 0 [1, 1] rfl

/-- C7: constructing the coordinator with a weight selection strategy
outside the recognized set fails at construction time, and for any
recognized strategy construction succeeds with the strategy stored
unchanged (never replaced by a default), so an unknown strategy never
reaches weight-selection time. -/
theorem c7_init_strategy_validation (algo : String) (use_gpi transfer : Bool) (k : Nat) :
    (algo ∈ weight_selection_algos →
      ∃ agent, MPMOQLearning.init algo use_gpi transfer k = Except.ok agent ∧
        agent.weight_selection_algo = algo ∧ agent.policies = []) ∧
    (algo ∉ weight_selection_algos →
      ∃ e, MPMOQLearning.init algo use_gpi transfer k = Except.error e) := by
  constructor
  · intro h
    unfold MPMOQLearning.init
    rw [if_pos h]
    exact ⟨_, rfl, rfl, rfl⟩
  · intro h
    unfold MPMOQLearning.init
    rw [if_neg h]
    exact ⟨_, rfl⟩

theorem c7_init_strategy_validation_witness :
    (∃ agent, MPMOQLearning.init "ols" false false 2 = Except.ok agent ∧
      agent.weight_selection_algo = "ols" ∧ agent.policies = []) ∧
    (∃ e, MPMOQLearning.init "epsilon-greedy" false false 2 = Except.error e) :=
  ⟨(c7_init_strategy_validation "ols" false false 2).1 (by decide),
   (c7_init_strategy_validation "epsilon-greedy" false false 2).2 (by decide)⟩

/-- C8: in non-GPI mode with exactly one policy in the pool and one value
vector on the frontier, eval delegates action selection to that single
policy's own evaluation routine for every weight of matching dimension. -/
theorem c8_single_policy_delegates (agent : MPMOQLearning) (p : MOQLearningPolicy)
    (v : List ℚ) (obs : Nat) (w : List ℚ)
    (hmode : agent.use_gpi_policy = false)
    (hpool : agent.policies = [p])
    (hccs : agent.linear_support.ccs = [v])
    (hdim : w.length = v.length) :
    MPMOQLearning.eval agent obs w = some (p.eval obs w) := by
  obtain ⟨d, hd⟩ := npDot_isSome_of_length_eq w v hdim
  unfold MPMOQLearning.eval
  rw [if_neg (by rw [hmode]; exact Bool.false_ne_true)]
  rw [hccs]
  have hdots : mapOpt (fun v => npDot w v) [v] = some [d] := by
    rw [mapOpt_cons, hd]
    rfl
  rw [hdots]
  have hamax : np_argmax [d] = some 0 := by
    simp [np_argmax, firstIdxOf, maxQ]
  rw [hpool]
  simp [hamax]

theorem c8_single_policy_delegates_witness :
    MPMOQLearning.eval
      { use_gpi_policy := false, weight_selection_algo := "random", transfer_q_table := false,
        reward_dim := 2,
        policies := [{ id := 0, weights := [1, 0], q_table := fun _ => [[0, 0]],
                       eval := fun _ _ => 7 }],
        linear_support := { num_objectives := 2, ccs := [[5, 3]] }, global_step := 0 }
      4 [2, 9] = some 7 :=
  c8_single_policy_delegates _ _ [(5 : ℚ), 3] 4 [2, 9] rfl rfl rfl (by decide)

/-- C9: whenever the queried weight vector's dimensionality differs from
the objective count (with the stored frontier vectors and Q-vectors of the
declared dimension), eval fails rather than returning an action, in both
modes: the mismatched vector is never coerced or broadcast. -/
theorem c9_dimension_mismatch (agent : MPMOQLearning) (obs : Nat) (w : List ℚ)
    (hccs : ∀ v ∈ agent.linear_support.ccs, v.length = agent.reward_dim)
    (hq : ∀ p ∈ agent.policies, ∀ row ∈ p.q_table obs, row.length = agent.reward_dim)
    (hw : w.length ≠ agent.reward_dim) :
    MPMOQLearning.eval agent obs w = none := by
  unfold MPMOQLearning.eval
  by_cases hmode : agent.use_gpi_policy
  · rw [if_pos hmode]
    unfold gpi_action
    cases hrows : mapOpt (fun p => scalarized_q_values p obs w) agent.policies with
    | none => rfl
    | some rows =>
      have hallnil : ∀ r ∈ rows, r = [] := by
        intro r hr
        obtain ⟨p, hp, hpr⟩ := mapOpt_mem_some agent.policies rows hrows r hr
        cases hqt : p.q_table obs with
        | nil =>
          unfold scalarized_q_values at hpr
          rw [hqt] at hpr
          have h0 : ([] : List ℚ) = r := by injection hpr
          exact h0.symm
        | cons qa qas =>
          have hqa : qa.length = agent.reward_dim :=
            hq p hp qa (by rw [hqt]; exact List.mem_cons_self qa qas)
          have hnone : npDot qa w = none :=
            npDot_eq_none_of_length_ne qa w (by rw [hqa]; omega)
          unfold scalarized_q_values at hpr
          rw [hqt, mapOpt_cons, hnone] at hpr
          simp at hpr
      cases rows with
      | nil => rfl
      | cons r rs =>
        have hflat : List.flatten (r :: rs) = [] :=
          List.flatten_eq_nil_iff.mpr hallnil
        have hgpi : gpi_rows (r :: rs) = none := by
          show (if rs.all (fun q => q.length == r.length) then
              (np_argmax (List.flatten (r :: rs))).map (fun j => j % r.length) else none) = none
          by_cases hall : rs.all (fun q => q.length == r.length) = true
          · rw [if_pos hall, hflat]
            rfl
          · rw [if_neg hall]
        exact hgpi
  · rw [if_neg hmode]
    cases hc : agent.linear_support.ccs with
    | nil => rfl
    | cons v vs =>
      have hv : v.length = agent.reward_dim :=
        hccs v (by rw [hc]; exact List.mem_cons_self v vs)
      have hnone : npDot w v = none :=
        npDot_eq_none_of_length_ne w v (by rw [hv]; exact hw)
      rw [mapOpt_cons, hnone]
      rfl

theorem c9_dimension_mismatch_witness :
    MPMOQLearning.eval
      { use_gpi_policy := false, weight_selection_algo := "random", transfer_q_table := false,
        reward_dim := 2,
        policies := [{ id := 0, weights := [1, 0], q_table := fun _ => [[0, 0]],
                       eval := fun _ _ => 7 }],
        linear_support := { num_objectives := 2, ccs := [[5, 3]] }, global_step := 0 }
      4 [1, 2, 3] = none :=
  c9_dimension_mismatch _ 4 [1, 2, 3] (by decide) (by decide) (by decide)

/-- C5: with Q-table transfer enabled and a non-empty pool, the transfer
block gives the new policy a fresh deep copy of the Q-table of the pool
member whose frontier value vector maximizes the dot product with the new
weight: after the transfer the new reference differs from every pool
member's reference, its contents equal the source contents, and writing
through either of the two references leaves the table behind the other
unchanged. -/
theorem c5_transfer_deep_copy (policies : List PolicyRef) (ccs : List (List ℚ))
    (w : List ℚ) (st : QStore) (new_agent : PolicyRef)
    (hpool : policies ≠ [])
    (hlen : ccs.length = policies.length)
    (hdims : ∀ v ∈ ccs, v.length = w.length)
    (href : ∀ p ∈ policies, p.q_table_ref < st.next) :
    ∃ st' na dots reuse_ind src,
      mapOpt (fun v => npDot w v) ccs = some dots ∧
      np_argmax dots = some reuse_ind ∧
      (∀ j < dots.length, dots.getD j 0 ≤ dots.getD reuse_ind 0) ∧
      policies[reuse_ind]? = some src ∧ src ∈ policies ∧
      transferStep true policies ccs w st new_agent = some (st', na) ∧
      st'.heap na.q_table_ref = st.heap src.q_table_ref ∧
      (∀ p ∈ policies, na.q_table_ref ≠ p.q_table_ref) ∧
      (∀ t, (writeQTable st' na.q_table_ref t).heap src.q_table_ref =
        st'.heap src.q_table_ref) ∧
      (∀ t, (writeQTable st' src.q_table_ref t).heap na.q_table_ref =
        st'.heap na.q_table_ref) := by
  have hpos : 0 < policies.length := List.length_pos.mpr hpool
  obtain ⟨dots, hdots⟩ := mapOpt_isSome ccs
    (fun v hv => npDot_isSome_of_length_eq w v (hdims v hv).symm)
  have hdlen : dots.length = ccs.length := mapOpt_length ccs dots hdots
  have hdne : dots ≠ [] := by
    intro h
    rw [h] at hdlen
    simp only [List.length_nil] at hdlen
    rw [hlen] at hdlen
    omega
  obtain ⟨i, hsome, hilen, hmax, _⟩ := np_argmax_spec' dots hdne
  have hipol : i < policies.length := by
    rw [hdlen, hlen] at hilen
    exact hilen
  have hsrc : policies[i]? = some policies[i] := List.getElem?_eq_getElem hipol
  have hmem : policies[i] ∈ policies := List.getElem_mem hipol
  set src := policies[i] with hsrcdef
  have hstep : transferStep true policies ccs w st new_agent =
      some ({ heap := fun r => if r = st.next then st.heap src.q_table_ref else st.heap r,
              next := st.next + 1 },
            { new_agent with q_table_ref := st.next }) := by
    unfold transferStep
    rw [if_pos ⟨rfl, hpos⟩, hdots]
    simp only [Option.some_bind]
    rw [hsome]
    simp only [Option.some_bind]
    rw [hsrc]
    simp only [Option.map_some']
    rfl
  refine ⟨_, _, dots, i, src, hdots, hsome, ?_, hsrc, hmem, hstep, ?_, ?_, ?_, ?_⟩
  · intro j hj
    exact hmax j hj
  · show (if st.next = st.next then st.heap src.q_table_ref else st.heap st.next) =
      st.heap src.q_table_ref
    rw [if_pos rfl]
  · intro p hp
    show st.next ≠ p.q_table_ref
    have := href p hp
    omega
  · intro t
    have hne : src.q_table_ref ≠ st.next := by
      have := href src hmem
      omega
    show (if src.q_table_ref = st.next then t else _) = _
    rw [if_neg hne]
  · intro t
    have hne : st.next ≠ src.q_table_ref := by
      have := href src hmem
      omega
    show (if st.next = src.q_table_ref then t else _) = _
    rw [if_neg hne]

theorem c5_transfer_deep_copy_witness :
    ∃ st' na dots reuse_ind src,
      mapOpt (fun v => npDot [(1 : ℚ), 3] v) [[(1 : ℚ), 0], [0, 1]] = some dots ∧
      np_argmax dots = some reuse_ind ∧
      (∀ j < dots.length, dots.getD j 0 ≤ dots.getD reuse_ind 0) ∧
      [PolicyRef.mk [(1 : ℚ), 0] 0, PolicyRef.mk [0, 1] 1][reuse_ind]? = some src ∧
      src ∈ [PolicyRef.mk [(1 : ℚ), 0] 0, PolicyRef.mk [0, 1] 1] ∧
      transferStep true [PolicyRef.mk [(1 : ℚ), 0] 0, PolicyRef.mk [0, 1] 1]
        [[(1 : ℚ), 0], [0, 1]] [1, 3]
        { heap := fun r => if r = 0 then [[[1]]] else [[[2]]], next := 2 }
        (PolicyRef.mk [(1 : ℚ), 3] 0) = some (st', na) ∧
      st'.heap na.q_table_ref =
        QStore.heap { heap := fun r => if r = 0 then [[[1]]] else [[[2]]], next := 2 }
          src.q_table_ref ∧
      (∀ p ∈ [PolicyRef.mk [(1 : ℚ), 0] 0, PolicyRef.mk [0, 1] 1],
        na.q_table_ref ≠ p.q_table_ref) ∧
      (∀ t, (writeQTable st' na.q_table_ref t).heap src.q_table_ref =
        st'.heap src.q_table_ref) ∧
      (∀ t, (writeQTable st' src.q_table_ref t).heap na.q_table_ref =
        st'.heap na.q_table_ref) :=
  c5_transfer_deep_copy [PolicyRef.mk [(1 : ℚ), 0] 0, PolicyRef.mk [0, 1] 1]
    [[(1 : ℚ), 0], [0, 1]] [1, 3]
    { heap := fun r => if r = 0 then [[[1]]] else [[[2]]], next := 2 }
    (PolicyRef.mk [(1 : ℚ), 3] 0)
    (List.cons_ne_nil _ _) (by decide) (by decide) (by decide)

/-! ## Lemmas about the training loop model -/

theorem trainRun_nil (T : Nat) (st : LoopState) : trainRun T st [] = st := rfl

theorem trainRun_cons (T : Nat) (st : LoopState) (o : IterOracle) (os : List IterOracle) :
    trainRun T st (o :: os) = trainRun T (trainIteration T st o) os := rfl

theorem aligned_trainIteration (T : Nat) (st : LoopState) (o : IterOracle)
    (h : aligned st) : aligned (trainIteration T st o) := by
  unfold aligned trainIteration add_solution
  apply forall₂_deleteIndices
  exact List.rel_append h (List.Forall₂.cons rfl List.Forall₂.nil)

theorem aligned_trainRun (T : Nat) :
    ∀ (os : List IterOracle) (st : LoopState), aligned st → aligned (trainRun T st os) := by
  intro os
  induction os with
  | nil => intro st h; exact h
  | cons o os ih =>
    intro st h
    rw [trainRun_cons]
    exact ih (trainIteration T st o) (aligned_trainIteration T st o h)

theorem trainIteration_global_step (T : Nat) (st : LoopState) (o : IterOracle) :
    (trainIteration T st o).global_step = st.global_step + T := rfl

theorem trainRun_global_step (T : Nat) :
    ∀ (os : List IterOracle) (st : LoopState),
      (trainRun T st os).global_step = st.global_step + os.length * T := by
  intro os
  induction os with
  | nil => intro st; simp [trainRun_nil]
  | cons o os ih =>
    intro st
    rw [trainRun_cons, ih (trainIteration T st o), trainIteration_global_step]
    simp only [List.length_cons]
    rw [Nat.succ_mul]
    omega

theorem trainIteration_pool_length (T : Nat) (st : LoopState) (o : IterOracle) :
    (trainIteration T st o).pool.length ≤ st.pool.length + 1 := by
  unfold trainIteration
  have h1 := (deleteIndices_sublist
    (st.pool ++ [PoolEntry.mk o.w o.value (st.global_step + T)])
    (add_solution st.ccs o.value).2).length_le
  simpa using h1

theorem trainRun_pool_length (T : Nat) :
    ∀ (os : List IterOracle) (st : LoopState),
      (trainRun T st os).pool.length ≤ st.pool.length + os.length := by
  intro os
  induction os with
  | nil => intro st; simp [trainRun_nil]
  | cons o os ih =>
    intro st
    rw [trainRun_cons]
    have h1 := ih (trainIteration T st o)
    have h2 := trainIteration_pool_length T st o
    simp only [List.length_cons]
    omega

theorem trainRun_pool_weights (T : Nat) (P : List ℚ → Prop) :
    ∀ (os : List IterOracle) (st : LoopState),
      (∀ q ∈ st.pool, P q.weights) → (∀ o ∈ os, P o.w) →
      ∀ q ∈ (trainRun T st os).pool, P q.weights := by
  intro os
  induction os with
  | nil => intro st hst _ q hq; exact hst q hq
  | cons o os ih =>
    intro st hst hos q hq
    rw [trainRun_cons] at hq
    refine ih (trainIteration T st o) ?_ (fun o' ho' => hos o' (List.mem_cons_of_mem o ho')) q hq
    intro q' hq'
    have hsub := (deleteIndices_sublist
      (st.pool ++ [PoolEntry.mk o.w o.value (st.global_step + T)])
      (add_solution st.ccs o.value).2).subset
    have hq'' : q' ∈ st.pool ++ [PoolEntry.mk o.w o.value (st.global_step + T)] := hsub hq'
    rcases List.mem_append.mp hq'' with h1 | h2
    · exact hst q' h1
    · have : q' = PoolEntry.mk o.w o.value (st.global_step + T) := by simpa using h2
      rw [this]
      exact hos o (List.mem_cons_self o os)

/-- C2: starting from any aligned state (in particular the fresh
coordinator), at the end of every iteration of train — after
delete_policies has been applied to the index set returned by the frontier
service's add_solution — the pool and the frontier have equal length and
the pool entry at each position is the policy whose evaluation produced
the frontier value vector at that position. -/
theorem c2_pool_frontier_alignment (T : Nat) (st : LoopState) (os : List IterOracle)
    (h : aligned st) :
    ∀ n, aligned (trainRun T st (os.take n)) ∧
      (trainRun T st (os.take n)).pool.length = (trainRun T st (os.take n)).ccs.length := by
  intro n
  have ha := aligned_trainRun T (os.take n) st h
  exact ⟨ha, ha.length_eq⟩

theorem c2_pool_frontier_alignment_witness :
    aligned (trainRun 5 initialLoopState
      (([⟨[1, 0], [1, 0]⟩, ⟨[0, 1], [5, 5]⟩] : List IterOracle).take 2)) ∧
    (trainRun 5 initialLoopState
      (([⟨[1, 0], [1, 0]⟩, ⟨[0, 1], [5, 5]⟩] : List IterOracle).take 2)).pool.length =
    (trainRun 5 initialLoopState
      (([⟨[1, 0], [1, 0]⟩, ⟨[0, 1], [5, 5]⟩] : List IterOracle).take 2)).ccs.length :=
  c2_pool_frontier_alignment 5 initialLoopState
    [⟨[1, 0], [1, 0]⟩, ⟨[0, 1], [5, 5]⟩] List.Forall₂.nil 2

/-- C6: a run with objective count 2, random weight selection, transfer
disabled and 3 iterations ends with a pool of at most 3 policies, a global
step counter of exactly 3 * timesteps_per_iteration (the counter is
propagated into each policy and read back, never reset), and every
surviving pool member's stored weight vector has 2 non-negative
components. The per-iteration weights come from the spec-modelled random
weight generator, so they are 2-dimensional and non-negative. -/
theorem c6_three_iteration_run (T : Nat) (os : List IterOracle)
    (hlen : os.length = 3)
    (hw : ∀ o ∈ os, o.w.length = 2 ∧ ∀ x ∈ o.w, 0 ≤ x) :
    (trainRun T initialLoopState os).pool.length ≤ 3 ∧
    (trainRun T initialLoopState os).global_step = 3 * T ∧
    (∀ q ∈ (trainRun T initialLoopState os).pool,
      q.weights.length = 2 ∧ ∀ x ∈ q.weights, 0 ≤ x) := by
  refine ⟨?_, ?_, ?_⟩
  · have h := trainRun_pool_length T os initialLoopState
    rw [hlen] at h
    simpa [initialLoopState] using h
  · have h := trainRun_global_step T os initialLoopState
    rw [hlen] at h
    simpa [initialLoopState] using h
  · exact trainRun_pool_weights T (fun ws => ws.length = 2 ∧ ∀ x ∈ ws, 0 ≤ x) os
      initialLoopState (by intro q hq; simp [initialLoopState] at hq) hw

theorem c6_three_iteration_run_witness :
    (trainRun 7 initialLoopState
      ([⟨[1, 0], [1, 0]⟩, ⟨[0, 1], [2, 2]⟩, ⟨[2, 3], [0, 1]⟩] : List IterOracle)).pool.length ≤ 3 ∧
    (trainRun 7 initialLoopState
      ([⟨[1, 0], [1, 0]⟩, ⟨[0, 1], [2, 2]⟩, ⟨[2, 3], [0, 1]⟩] : List IterOracle)).global_step = 3 * 7 ∧
    (∀ q ∈ (trainRun 7 initialLoopState
      ([⟨[1, 0], [1, 0]⟩, ⟨[0, 1], [2, 2]⟩, ⟨[2, 3], [0, 1]⟩] : List IterOracle)).pool,
      q.weights.length = 2 ∧ ∀ x ∈ q.weights, 0 ≤ x) :=
  c6_three_iteration_run 7 [⟨[1, 0], [1, 0]⟩, ⟨[0, 1], [2, 2]⟩, ⟨[2, 3], [0, 1]⟩]
    rfl (by decide)

end MorlSpec
